import Mathlib

/-!
Verification of the news-bias-detector backend against its specification.

The Python sources are shallowly embedded:
* `backend/gemini_client.py` — sentence splitting, `_create_smart_chunks`,
  the streaming analysis generator (`analyze_claims_streaming`), verdict
  tallying and the misleading-risk score;
* `newspaper_client.py` — `fetch_article`, `fetch_multiple_articles`,
  `validate_url` and the `_is_valid_url` helper.

External effects (the completion API, HTTP requests) are passed in as
explicit oracle functions; machine floats appearing in the risk-score
formula are embedded as exact rationals (all the constants involved are
dyadic, and Python's `int()` on a non-negative value is the floor).
-/

/-! ## Sentence splitting (`re.split(r'(?<=[.!?])\s+', target_text)`) -/

/-- ASCII portion of the regex class `\s` used by Python's `re`. -/
def isPySpace (c : Char) : Bool :=
  c == ' ' || c == '\t' || c == '\n' || c == '\r' || c == Char.ofNat 11 || c == Char.ofNat 12

/-- Whether the previous character matches the lookbehind class `[.!?]`. -/
def isSentenceEnd : Option Char → Bool
  | some c => c == '.' || c == '!' || c == '?'
  | none => false

/-- Scanner for `re.split(r'(?<=[.!?])\s+', text)`: a whitespace character
preceded by `.`, `!` or `?` opens a separator.  The regex consumes the whole
whitespace run; here only the first character of the run is consumed and the
rest is left at the head of the next fragment.  This is equivalent after the
strip-and-drop-empty pass that follows in the source, because the later
characters of a whitespace run are preceded by whitespace, never by `[.!?]`,
so they open no further separator, and leading whitespace is stripped. -/
def splitGo : List Char → Option Char → List Char → List (List Char)
  | [], _, curr => [curr.reverse]
  | c :: rest, prev, curr =>
    if isPySpace c && isSentenceEnd prev then
      curr.reverse :: splitGo rest (some c) []
    else
      splitGo rest (some c) (c :: curr)

/-- Python `str.strip()` restricted to ASCII whitespace. -/
def stripChars (cs : List Char) : List Char :=
  ((cs.dropWhile isPySpace).reverse.dropWhile isPySpace).reverse

/-- `sentences = [s.strip() for s in re.split(...) if s.strip()]`
(gemini_client.py lines 413-414). -/
def splitSentences (text : String) : List String :=
  ((splitGo text.toList none []).map (fun cs => String.mk (stripChars cs))).filter
    (fun s => !s.isEmpty)

/-! ## Smart chunking (`GeminiClient._create_smart_chunks`) -/

/-- The loop body of `_create_smart_chunks` (gemini_client.py lines 379-401),
carrying the remaining sentences, the running index from `enumerate`, the
`current_chunk` accumulator and `current_length`.  The trailing flush of the
last chunk is the `[]` case. -/
def smartChunksGo (max_chars : ℕ) : List String → ℕ → List (ℕ × String) → ℕ →
    List (List (ℕ × String))
  | [], _, current_chunk, _ =>
    if current_chunk.isEmpty then [] else [current_chunk]
  | sentence :: rest, idx, current_chunk, current_length =>
    let sentence_length := sentence.length
    if current_length + sentence_length > max_chars && !current_chunk.isEmpty then
      current_chunk :: smartChunksGo max_chars rest (idx + 1) [(idx, sentence)] sentence_length
    else
      smartChunksGo max_chars rest (idx + 1) (current_chunk ++ [(idx, sentence)])
        (current_length + sentence_length + 1)

/-- `_create_smart_chunks(sentences, max_chars)`: chunks of `(index, sentence)`
pairs. -/
def create_smart_chunks (sentences : List String) (max_chars : ℕ) :
    List (List (ℕ × String)) :=
  smartChunksGo max_chars sentences 0 [] 0

/-- `sum(len(sent) for _, sent in chunk)` (gemini_client.py line 451). -/
def chunk_char_count (chunk : List (ℕ × String)) : ℕ :=
  (chunk.map (fun p => p.2.length)).sum

/-! ## Reference packaging (`analyze_claims_streaming`, lines 426-434 and 580-591) -/

/-- A caller-supplied reference article: a Python dict read with `.get`, so
every field may be absent. -/
structure RefInput where
  title : Option String
  date : Option String
  url : Option String
  text : Option String
deriving DecidableEq

/-- An entry of `references_json` as serialized into the chunk prompts. -/
structure PackagedRef where
  ref_id : String
  title : String
  date : String
  url : String
  text : String
deriving DecidableEq

/-- An entry of `document_metadata.references_used` in the terminal event. -/
structure RefUsed where
  ref_id : String
  title : String
  date : String
  url : String
deriving DecidableEq

/-- gemini_client.py lines 426-434: `for i, ref in enumerate(references, start=1)`
builds `references_json` with `ref_id = f"R{i}"` and `.get` defaults. -/
def package_references (references : List RefInput) : List PackagedRef :=
  references.enum.map fun p =>
    ⟨"R" ++ toString (p.1 + 1), p.2.title.getD "Untitled", p.2.date.getD "Unknown",
      p.2.url.getD "Unknown", p.2.text.getD ""⟩

/-- gemini_client.py lines 583-590: the `references_used` list of the
`analysis_complete` event, projecting each packaged reference. -/
def references_used (references_json : List PackagedRef) : List RefUsed :=
  references_json.map fun r => ⟨r.ref_id, r.title, r.date, r.url⟩

/-! ## Verdict tallying (`analyze_claims_streaming`, lines 543-546) -/

/-- One step of the tally:
`verdict_counts[verdict] = verdict_counts.get(verdict, 0) + 1` on an
insertion-ordered association list, which is how a Python dict behaves. -/
def bumpCount : List (String × ℕ) → String → List (String × ℕ)
  | [], k => [(k, 1)]
  | (k', n) :: rest, k =>
    if k' == k then (k', n + 1) :: rest else (k', n) :: bumpCount rest k

/-- The `verdict_counts` dict after the tally loop over all review verdicts. -/
def tally_verdicts (verdicts : List String) : List (String × ℕ) :=
  verdicts.foldl bumpCount []

/-- Python `verdict_counts.get(k, 0)`. -/
def countsGet (counts : List (String × ℕ)) (k : String) : ℕ :=
  match counts.find? (fun p => p.1 == k) with
  | some p => p.2
  | none => 0

/-- Python `sum(verdict_counts.values())`. -/
def countsTotal (counts : List (String × ℕ)) : ℕ :=
  (counts.map Prod.snd).sum

/-! ## Misleading-risk score (`analyze_claims_streaming`, lines 548-554) -/

/-- gemini_client.py lines 548-554:
`min(100, int(((contradicted * 2 + misleading * 1.5) / total_reviews) * 100))`,
guarded by `if total_reviews > 0` around an initial `risk_score = 0`.
The float arithmetic is embedded as exact rational arithmetic (every operand
is a small dyadic rational), and `int()` truncation of the non-negative
quotient is the floor. -/
def risk_score (contradicted misleading total_reviews : ℕ) : ℕ :=
  if 0 < total_reviews then
    min 100 (Int.toNat ⌊(((contradicted : ℚ) * 2 + (misleading : ℚ) * 1.5)
      / (total_reviews : ℚ)) * 100⌋)
  else 0

/-- Modelled from the spec for comparison with `risk_score` (claim C3): the
spec's formula uses `round` where the source truncates with `int`. -/
def risk_score_rounded (contradicted misleading total_reviews : ℕ) : ℕ :=
  if 0 < total_reviews then
    min 100 (Int.toNat (round ((((contradicted : ℚ) * 2 + (misleading : ℚ) * 1.5)
      / (total_reviews : ℚ)) * 100)))
  else 0

/-! ## Streaming analysis (`analyze_claims_streaming`, gemini_client.py lines 403-593) -/

/-- A parsed sentence review as the streaming loop consumes it: the code reads
`review['index']` (for the progress payload) and
`review.get('verdict', 'Unknown')` (for the tally). -/
structure Review where
  index : ℕ
  verdict : Option String
deriving DecidableEq

/-- The events the streaming generator yields. -/
inductive Event where
  | analysis_start (total_sentences : ℕ) (target_title target_date : String)
  | sentence_review (review : Review) (current total : ℕ)
  | generating_summary
  | analysis_complete (counts_by_verdict : List (String × ℕ)) (total_sentences : ℕ)
      (misleading_risk_score : ℕ) (summary : String)
      (target_title target_date : String) (refs_used : List RefUsed)
deriving DecidableEq

def Event.isSentenceReview : Event → Bool
  | .sentence_review _ _ _ => true
  | _ => false

def Event.isGeneratingSummary : Event → Bool
  | .generating_summary => true
  | _ => false

def Event.isAnalysisComplete : Event → Bool
  | .analysis_complete _ _ _ _ _ _ _ => true
  | _ => false

/-- The events one chunk contributes (gemini_client.py lines 491-533): on a
successful call and parse, one `sentence_review` event per parsed review with
`current = review['index']`; every failure path (API error, JSON parse error,
exception) is logged and skipped, contributing nothing.  The outcome of the
completion-API call and parse is the oracle value. -/
def chunkEvents (total : ℕ) (outcome : Option (List Review)) : List Event :=
  match outcome with
  | some chunk_reviews =>
      chunk_reviews.map fun review => Event.sentence_review review review.index total
  | none => []

/-- The observable result of one run of the generator: the event sequence and
how many completion-API calls were issued for chunks and for the summary. -/
structure StreamRun where
  events : List Event
  chunk_api_calls : ℕ
  summary_api_calls : ℕ
deriving DecidableEq

/-- The `all_sentence_reviews` accumulator after the chunk loop
(gemini_client.py lines 438 and 508): the reviews of every chunk whose call
and parse succeeded, in chunk order. -/
def all_sentence_reviews (target_text : String)
    (chunk_result : ℕ → Option (List Review)) : List Review :=
  (create_smart_chunks (splitSentences target_text) 800).enum.flatMap fun p =>
    (chunk_result p.1).getD []

/-- The concatenated `sentence_review` events of the chunk loop
(gemini_client.py lines 442-533), in chunk order. -/
def events_of_chunks (target_text : String)
    (chunk_result : ℕ → Option (List Review)) : List Event :=
  (create_smart_chunks (splitSentences target_text) 800).enum.flatMap fun p =>
    chunkEvents (splitSentences target_text).length (chunk_result p.1)

/-- The `verdict_counts` dict of the summary phase (lines 543-546). -/
def verdict_counts (target_text : String)
    (chunk_result : ℕ → Option (List Review)) : List (String × ℕ) :=
  tally_verdicts
    ((all_sentence_reviews target_text chunk_result).map fun review =>
      review.verdict.getD "Unknown")

/-- The `risk_score` of the summary phase (lines 548-554), fed from
`verdict_counts.get('Contradicted', 0)`,
`verdict_counts.get('Misleading by context', 0)` and
`total_reviews = len(all_sentence_reviews)`. -/
def run_risk_score (target_text : String)
    (chunk_result : ℕ → Option (List Review)) : ℕ :=
  risk_score (countsGet (verdict_counts target_text chunk_result) "Contradicted")
    (countsGet (verdict_counts target_text chunk_result) "Misleading by context")
    (all_sentence_reviews target_text chunk_result).length

/-- `analyze_claims_streaming(target_title, target_text, references,
target_date)` (gemini_client.py lines 403-593).  `chunk_result i` is the
oracle for the completion-API call and JSON parse of chunk `i` (`none` =
any failure, which the code skips); `summary_result` is the oracle for the
final summary call, for which a failure makes the code substitute
`'Analysis complete.'` (a successful call always carries text). -/
def analyze_claims_streaming (target_title target_text : String)
    (references : List RefInput) (target_date : String)
    (chunk_result : ℕ → Option (List Review)) (summary_result : Option String) :
    StreamRun :=
  let total_sentences := (splitSentences target_text).length
  let head_events := Event.analysis_start total_sentences target_title target_date
    :: events_of_chunks target_text chunk_result
  if (all_sentence_reviews target_text chunk_result).isEmpty then
    ⟨head_events, (create_smart_chunks (splitSentences target_text) 800).length, 0⟩
  else
    ⟨head_events ++ [Event.generating_summary,
        Event.analysis_complete (verdict_counts target_text chunk_result)
          (all_sentence_reviews target_text chunk_result).length
          (run_risk_score target_text chunk_result)
          (summary_result.getD "Analysis complete.")
          target_title target_date (references_used (package_references references))],
      (create_smart_chunks (splitSentences target_text) 800).length, 1⟩

/-- The verdicts of the sentence reviews visible in an event stream, in
order. -/
def producedVerdicts (events : List Event) : List String :=
  events.filterMap fun e =>
    match e with
    | .sentence_review review _ _ => some (review.verdict.getD "Unknown")
    | _ => none

/-- A concrete chunk-result oracle used to instantiate theorems: every chunk
call parses to three reviews with verdicts Contradicted, Supported,
Supported. -/
def sampleChunkResult : ℕ → Option (List Review) :=
  fun _ => some [⟨1, some "Contradicted"⟩, ⟨2, some "Supported"⟩, ⟨3, some "Supported"⟩]

/-! ## URL parsing (`urllib.parse.urlparse` as used by `_is_valid_url`) -/

/-- `scheme_chars` of `urllib.parse` (ASCII letters, digits, `+`, `-`, `.`). -/
def isSchemeChar (c : Char) : Bool :=
  c.isAlpha || c.isDigit || c == '+' || c == '-' || c == '.'

/-- Whether a candidate scheme (the part before the first `:`) is accepted by
`urlsplit`: non-empty, starting with an ASCII letter, all scheme
characters. -/
def validScheme (p : List Char) : Bool :=
  match p with
  | [] => false
  | c :: rest => c.isAlpha && rest.all isSchemeChar

/-- The `(scheme, netloc)` pair of `urlparse(url)`, which is all
`_is_valid_url` looks at: the scheme is the lower-cased prefix before the
first `:` when that prefix is a valid scheme (otherwise empty, and the whole
string is kept); the netloc follows a leading `//` of the remainder and runs
to the next `/`, `?` or `#`. -/
def urlparse_scheme_netloc (url : String) : List Char × List Char :=
  let cs := url.toList
  let before := cs.takeWhile (fun c => !(c == ':'))
  let after := cs.dropWhile (fun c => !(c == ':'))
  let sr : List Char × List Char :=
    match after with
    | [] => ([], cs)
    | _ :: r => if validScheme before then (before.map Char.toLower, r) else ([], cs)
  let netloc :=
    match sr.2 with
    | '/' :: '/' :: r => r.takeWhile (fun c => !(c == '/' || c == '?' || c == '#'))
    | _ => []
  (sr.1, netloc)

/-- `_is_valid_url(url)` (newspaper_client.py lines 201-215):
`all([result.scheme, result.netloc])`, with the `ValueError` that `urlsplit`
raises on a netloc containing an unmatched square bracket caught and turned
into `False`. -/
def _is_valid_url (url : String) : Bool :=
  let parsed := urlparse_scheme_netloc url
  let bracketMismatch :=
    (parsed.2.contains '[' && !parsed.2.contains ']') ||
    (parsed.2.contains ']' && !parsed.2.contains '[')
  !bracketMismatch && !parsed.1.isEmpty && !parsed.2.isEmpty

/-! ## Article fetching (`newspaper_client.py` lines 32-114) -/

/-- The payload the third-party parser extracts from a page on success.  The
individual fields are opaque to the claims considered here. -/
structure ArticleData where
  title : String
  text : String
deriving DecidableEq

/-- An `ArticleRecord` as returned by `fetch_article`: either a success
record or the failure shape `{url, success: false, error, fetched_at}`. -/
inductive ArticleRecord where
  | ok (url : String) (data : ArticleData) (fetched_at : String)
  | failed (url : String) (error : String) (fetched_at : String)
deriving DecidableEq

def ArticleRecord.url : ArticleRecord → String
  | .ok u _ _ => u
  | .failed u _ _ => u

def ArticleRecord.isSuccess : ArticleRecord → Bool
  | .ok _ _ _ => true
  | .failed _ _ _ => false

/-- `fetch_article(url)` (newspaper_client.py lines 32-95).  `net` is the
oracle for the download-parse-enrich sequence of a well-formed URL (NLP
failure is non-fatal in the source and so folds into the success case);
`now` stands for `datetime.now().isoformat()`.  Every exception inside the
`try` block — including the `ValueError` the function itself raises on a
malformed URL — is caught and becomes a failure record. -/
def fetch_article (net : String → Except String ArticleData) (now : String)
    (url : String) : ArticleRecord :=
  if !(_is_valid_url url) then
    .failed url ("Invalid URL: " ++ url) now
  else
    match net url with
    | .ok d => .ok url d now
    | .error e => .failed url e now

/-- `fetch_multiple_articles(urls)` (newspaper_client.py lines 97-114): one
sequential `fetch_article` per URL, results appended in order. -/
def fetch_multiple_articles (net : String → Except String ArticleData)
    (now : String) (urls : List String) : List ArticleRecord :=
  urls.map (fetch_article net now)

/-! ## URL validation (`validate_url`, newspaper_client.py lines 150-199) -/

/-- The `requests.head` response as far as `validate_url` inspects it:
`status_code` and `headers.get('content-type', '')`. -/
structure HeadResp where
  status_code : ℕ
  content_type : Option String
deriving DecidableEq

/-- The result dict of `validate_url`. -/
structure ValidationResult where
  valid : Bool
  error : Option String
  url : String
  status_code : Option ℕ
  content_type : Option String
deriving DecidableEq

/-- Python's substring operator `pat in s`. -/
def strContains (s pat : String) : Bool :=
  s.toList.tails.any fun t => pat.toList.isPrefixOf t

/-- Python `str.lower()` restricted to ASCII. -/
def strLower (s : String) : String :=
  String.mk (s.toList.map Char.toLower)

/-- `validate_url(url)` (newspaper_client.py lines 150-199).  `head` is the
oracle for `requests.head(url, timeout=5)`; any exception is caught and
reported as an invalid result with the exception text. -/
def validate_url (head : String → Except String HeadResp) (url : String) :
    ValidationResult :=
  if !(_is_valid_url url) then
    ⟨false, some "Invalid URL format", url, none, none⟩
  else
    match head url with
    | .error e => ⟨false, some e, url, none, none⟩
    | .ok resp =>
      if resp.status_code ≠ 200 then
        ⟨false, some ("HTTP " ++ toString resp.status_code), url, none, none⟩
      else
        let content_type := strLower (resp.content_type.getD "")
        if !(strContains content_type "text/html") then
          ⟨false, some ("Invalid content type: " ++ content_type), url, none, none⟩
        else
          ⟨true, none, url, some resp.status_code, some content_type⟩

theorem smartChunksGo_flatten (max_chars : ℕ) (rest : List String) :
    ∀ (idx : ℕ) (current : List (ℕ × String)) (len : ℕ),
      (smartChunksGo max_chars rest idx current len).flatten
        = current ++ List.enumFrom idx rest := by
  induction rest with
  | nil =>
    intro idx current len
    by_cases h : current.isEmpty
    · simp [smartChunksGo, h, List.isEmpty_iff.mp h, List.enumFrom]
    · simp [smartChunksGo, h, List.enumFrom]
  | cons s rest ih =>
    intro idx current len
    by_cases h : (len + s.length > max_chars && !current.isEmpty) = true
    · simp only [smartChunksGo, h, if_true, List.flatten_cons, ih, List.enumFrom]
      simp
    · simp only [smartChunksGo, h, Bool.false_eq_true, if_false, ite_false]
      rw [ih (idx + 1) (current ++ [(idx, s)]) (len + s.length + 1)]
      simp [List.enumFrom]

theorem smartChunksGo_budget (max_chars : ℕ) (rest : List String) :
    ∀ (idx : ℕ) (current : List (ℕ × String)) (len : ℕ),
      chunk_char_count current ≤ len →
      (2 ≤ current.length → chunk_char_count current ≤ max_chars) →
      ∀ chunk ∈ smartChunksGo max_chars rest idx current len,
        chunk ≠ [] ∧ (2 ≤ chunk.length → chunk_char_count chunk ≤ max_chars) := by
  induction rest with
  | nil =>
    intro idx current len _ hcur chunk hmem
    by_cases h : current.isEmpty
    · simp [smartChunksGo, h] at hmem
    · have hmem2 : chunk = current := by
        simpa [smartChunksGo, h] using hmem
      subst hmem2
      refine ⟨?_, hcur⟩
      intro hnil
      rw [hnil] at h
      simp at h
  | cons s rest ih =>
    intro idx current len hlen hcur chunk hmem
    by_cases h : (len + s.length > max_chars && !current.isEmpty) = true
    · simp only [smartChunksGo, h, if_true] at hmem
      rcases List.mem_cons.mp hmem with hmem | hmem
      · subst hmem
        refine ⟨?_, hcur⟩
        intro hnil
        rw [hnil] at h
        simp at h
      · refine ih (idx + 1) [(idx, s)] s.length (by simp [chunk_char_count]) ?_ chunk hmem
        intro habs
        simp at habs
    · simp only [smartChunksGo, h, if_false] at hmem
      have hsum : chunk_char_count (current ++ [(idx, s)])
          = chunk_char_count current + s.length := by
        simp [chunk_char_count]
      refine ih (idx + 1) (current ++ [(idx, s)]) (len + s.length + 1) ?_ ?_ chunk hmem
      · omega
      · -- the guard failed: either the budget still has room or the chunk was empty
        have h2 : ¬(max_chars < len + s.length) ∨ current = [] := by
          by_cases hnil : current = []
          · exact Or.inr hnil
          · refine Or.inl fun hgt => h ?_
            have hne : current.isEmpty = false := by
              cases current
              · exact absurd rfl hnil
              · rfl
            simp [hne, hgt]
        intro hlen2
        rcases h2 with h2 | h2
        · omega
        · rw [h2] at hlen2
          simp at hlen2

/-- C1: concatenating the chunks produced by `_create_smart_chunks`, in chunk
order, reproduces the enumerated sentence sequence exactly: no sentence is
lost or duplicated, their order is unchanged, and each `(index, sentence)`
pair carries the sentence's original position. -/
theorem create_smart_chunks_concat (sentences : List String) (max_chars : ℕ)
    (hpos : 0 < max_chars) :
    (create_smart_chunks sentences max_chars).flatten = sentences.enum := by
  have := smartChunksGo_flatten max_chars sentences 0 [] 0
  simpa [create_smart_chunks, List.enum] using this

theorem create_smart_chunks_concat_witness :
    0 < 800 ∧
      (create_smart_chunks ["A.", "B.", "C."] 800).flatten = ["A.", "B.", "C."].enum :=
  ⟨by decide, create_smart_chunks_concat ["A.", "B.", "C."] 800 (by decide)⟩

/-- C2: every chunk produced by `_create_smart_chunks` whose total sentence
character length exceeds the budget consists of a single oversized sentence;
equivalently, every chunk containing two or more sentences has total sentence
character length at most the budget. -/
theorem create_smart_chunks_budget (sentences : List String) (max_chars : ℕ) :
    ∀ chunk ∈ create_smart_chunks sentences max_chars,
      (max_chars < chunk_char_count chunk →
        ∃ p, chunk = [p] ∧ max_chars < p.2.length) ∧
      (2 ≤ chunk.length → chunk_char_count chunk ≤ max_chars) := by
  intro chunk hmem
  have hbase := smartChunksGo_budget max_chars sentences 0 [] 0
    (by simp [chunk_char_count]) (by intro h; simp at h) chunk hmem
  refine ⟨?_, hbase.2⟩
  intro hover
  have hlen1 : chunk.length = 1 := by
    have hne := hbase.1
    have := hbase.2
    rcases chunk with _ | ⟨p, _ | ⟨q, tl⟩⟩
    · exact absurd rfl hne
    · rfl
    · exact absurd (hbase.2 (by simp)) (by omega)
  rcases chunk with _ | ⟨p, tl⟩
  · simp at hlen1
  · have : tl = [] := by
      simpa using hlen1
    subst this
    exact ⟨p, rfl, by simpa [chunk_char_count] using hover⟩

theorem create_smart_chunks_budget_witness :
    [(0, "ab"), (1, "cd")] ∈ create_smart_chunks ["ab", "cd"] 800 ∧
      chunk_char_count [(0, "ab"), (1, "cd")] ≤ 800 := by
  have hmem : [(0, "ab"), (1, "cd")] ∈ create_smart_chunks ["ab", "cd"] 800 := by
    decide
  have h2 : 2 ≤ ([(0, "ab"), (1, "cd")] : List (ℕ × String)).length := by decide
  exact ⟨hmem,
    (create_smart_chunks_budget ["ab", "cd"] 800 [(0, "ab"), (1, "cd")] hmem).2 h2⟩

/-! ## Theorems about reference packaging (C5) -/

theorem countsGet_nil (k : String) : countsGet [] k = 0 := rfl

theorem countsGet_cons (a : String) (b : ℕ) (rest : List (String × ℕ)) (k : String) :
    countsGet ((a, b) :: rest) k = if a == k then b else countsGet rest k := by
  by_cases h : (a == k) = true
  · simp [countsGet, List.find?_cons_of_pos, h]
  · simp only [countsGet, List.find?]
    simp only [Bool.not_eq_true] at h
    simp [h]

theorem references_used_getElem (references : List RefInput) (i : ℕ)
    (h : i < references.length) :
    (references_used (package_references references))[i]?
        = ((package_references references)[i]?).map
            (fun r => RefUsed.mk r.ref_id r.title r.date r.url) ∧
    ((package_references references)[i]?).map PackagedRef.ref_id
        = some ("R" ++ toString (i + 1)) := by
  constructor
  · simp [references_used]
  · simp only [package_references, List.getElem?_map, List.getElem?_enum]
    rw [List.getElem?_eq_getElem h]
    simp

/-! ## Theorems about the verdict tally -/

theorem countsTotal_bumpCount (counts : List (String × ℕ)) (k : String) :
    countsTotal (bumpCount counts k) = countsTotal counts + 1 := by
  induction counts with
  | nil => simp [bumpCount, countsTotal]
  | cons p rest ih =>
    rcases p with ⟨a, n⟩
    by_cases h : (a == k) = true
    · simp [bumpCount, h, countsTotal]
      omega
    · simp only [Bool.not_eq_true] at h
      simp only [bumpCount, h, Bool.false_eq_true, if_false, ite_false]
      simp only [countsTotal, List.map_cons, List.sum_cons] at ih ⊢
      omega

theorem countsTotal_foldl (verdicts : List String) :
    ∀ acc, countsTotal (verdicts.foldl bumpCount acc)
      = countsTotal acc + verdicts.length := by
  induction verdicts with
  | nil => intro acc; simp
  | cons v rest ih =>
    intro acc
    simp only [List.foldl_cons, ih, countsTotal_bumpCount, List.length_cons]
    omega

theorem countsTotal_tally (verdicts : List String) :
    countsTotal (tally_verdicts verdicts) = verdicts.length := by
  have := countsTotal_foldl verdicts []
  simpa [tally_verdicts, countsTotal] using this

theorem bumpCount_cons (a : String) (n : ℕ) (rest : List (String × ℕ)) (k : String) :
    bumpCount ((a, n) :: rest) k
      = if a == k then (a, n + 1) :: rest else (a, n) :: bumpCount rest k := rfl

theorem countsGet_bumpCount (counts : List (String × ℕ)) (k bumped : String) :
    countsGet (bumpCount counts bumped) k
      = countsGet counts k + (if bumped == k then 1 else 0) := by
  induction counts with
  | nil =>
    by_cases h : (bumped == k) = true
    · simp [bumpCount, countsGet_cons, countsGet_nil, h]
    · simp [bumpCount, countsGet_cons, countsGet_nil, h]
  | cons p rest ih =>
    rcases p with ⟨a, n⟩
    rw [bumpCount_cons]
    by_cases h0 : (a == bumped) = true
    · rw [if_pos h0]
      have ha : a = bumped := by simpa using h0
      subst ha
      by_cases hk : (a == k) = true
      · rw [countsGet_cons, if_pos hk, countsGet_cons, if_pos hk, if_pos hk]
      · rw [countsGet_cons, if_neg hk, countsGet_cons, if_neg hk, if_neg hk]
        omega
    · rw [if_neg h0]
      by_cases hk : (a == k) = true
      · have hak : a = k := by simpa using hk
        have hbk : ¬((bumped == k) = true) := by
          intro hcon
          have h1 : bumped = k := by simpa using hcon
          have h2 : a = bumped := by rw [hak, h1]
          rw [h2] at h0
          simp at h0
        rw [countsGet_cons, if_pos hk, countsGet_cons, if_pos hk, if_neg hbk]
        omega
      · rw [countsGet_cons, if_neg hk, countsGet_cons, if_neg hk]
        exact ih

theorem countsGet_foldl (verdicts : List String) :
    ∀ (acc : List (String × ℕ)) (k : String),
      countsGet (verdicts.foldl bumpCount acc) k
        = countsGet acc k + verdicts.count k := by
  induction verdicts with
  | nil => intro acc k; simp [List.count]
  | cons v rest ih =>
    intro acc k
    simp only [List.foldl_cons, ih, countsGet_bumpCount, List.count_cons]
    by_cases h : (v == k) = true
    · omega
    · omega

theorem countsGet_tally (verdicts : List String) (k : String) :
    countsGet (tally_verdicts verdicts) k = verdicts.count k := by
  have := countsGet_foldl verdicts [] k
  simpa [tally_verdicts, countsGet_nil] using this

/-! ## Theorems about the risk score (C8, groundwork for C3) -/

theorem risk_score_eq_div (c m t : ℕ) (ht : 0 < t) :
    risk_score c m t = min 100 ((200 * c + 150 * m) / t) := by
  rw [risk_score, if_pos ht]
  have ht' : (t : ℚ) ≠ 0 := Nat.cast_ne_zero.mpr (by omega)
  have h15 : (1.5 : ℚ) = 3 / 2 := by norm_num
  have hq : (((c : ℚ) * 2 + (m : ℚ) * 1.5) / (t : ℚ)) * 100
      = (((200 * c + 150 * m : ℕ) : ℤ) : ℚ) / ((t : ℕ) : ℚ) := by
    rw [h15]
    push_cast
    field_simp
    ring
  rw [hq, Rat.floor_intCast_div_natCast, ← Int.natCast_div, Int.toNat_natCast]

/-- C8: for positive `total_reviews` the risk score is an integer in
`[0, 100]` and, with `total_reviews` fixed, is monotonically non-decreasing
in the contradicted count and in the misleading count. -/
theorem risk_score_bounds_monotone (c m t : ℕ) (ht : 0 < t) :
    risk_score c m t ≤ 100 ∧
      (∀ c', c ≤ c' → risk_score c m t ≤ risk_score c' m t) ∧
      (∀ m', m ≤ m' → risk_score c m t ≤ risk_score c m' t) := by
  refine ⟨?_, ?_, ?_⟩
  · rw [risk_score_eq_div c m t ht]
    exact min_le_left _ _
  · intro c' hc
    rw [risk_score_eq_div c m t ht, risk_score_eq_div c' m t ht]
    exact min_le_min (le_refl _) (Nat.div_le_div_right (by omega))
  · intro m' hm
    rw [risk_score_eq_div c m t ht, risk_score_eq_div c m' t ht]
    exact min_le_min (le_refl _) (Nat.div_le_div_right (by omega))

theorem risk_score_bounds_monotone_witness :
    (0 < 3 ∧ risk_score 1 0 3 ≤ 100) ∧
      (1 ≤ 2 ∧ risk_score 1 0 3 ≤ risk_score 2 0 3) := by
  have ht : 0 < 3 := by decide
  refine ⟨⟨ht, (risk_score_bounds_monotone 1 0 3 ht).1⟩, ?_⟩
  have hc : 1 ≤ 2 := by decide
  exact ⟨hc, (risk_score_bounds_monotone 1 0 3 ht).2.1 2 hc⟩

/-! ## Structural lemmas about the streaming run -/

theorem chunkEvents_all_SR (total : ℕ) (o : Option (List Review)) :
    ∀ e ∈ chunkEvents total o, e.isSentenceReview = true := by
  cases o with
  | none => intro e he; simp [chunkEvents] at he
  | some revs =>
    intro e he
    simp only [chunkEvents, List.mem_map] at he
    obtain ⟨rv, -, rfl⟩ := he
    rfl

theorem chunkEvents_length (total : ℕ) (o : Option (List Review)) :
    (chunkEvents total o).length = (o.getD []).length := by
  cases o <;> simp [chunkEvents]

theorem producedVerdicts_chunkEvents (total : ℕ) (o : Option (List Review)) :
    producedVerdicts (chunkEvents total o)
      = (o.getD []).map fun rv => rv.verdict.getD "Unknown" := by
  cases o with
  | none => rfl
  | some revs =>
    induction revs with
    | nil => rfl
    | cons rv rest ih =>
      simp only [chunkEvents, producedVerdicts, List.map_cons, List.filterMap_cons,
        Option.getD_some] at ih ⊢
      rw [ih]

theorem events_of_chunks_all_SR (tx : String) (cr : ℕ → Option (List Review)) :
    ∀ e ∈ events_of_chunks tx cr, e.isSentenceReview = true := by
  intro e he
  rw [events_of_chunks, List.mem_flatMap] at he
  obtain ⟨p, -, he⟩ := he
  exact chunkEvents_all_SR _ _ e he

theorem events_of_chunks_length (tx : String) (cr : ℕ → Option (List Review)) :
    (events_of_chunks tx cr).length = (all_sentence_reviews tx cr).length := by
  rw [events_of_chunks, all_sentence_reviews, List.length_flatMap, List.length_flatMap]
  congr 1
  apply List.map_congr_left
  intro p _
  exact chunkEvents_length _ _

theorem producedVerdicts_events_of_chunks (tx : String)
    (cr : ℕ → Option (List Review)) :
    producedVerdicts (events_of_chunks tx cr)
      = (all_sentence_reviews tx cr).map fun rv => rv.verdict.getD "Unknown" := by
  rw [events_of_chunks, all_sentence_reviews, producedVerdicts, List.filterMap_flatMap,
    List.map_flatMap]
  apply List.flatMap_congr
  intro p _
  exact producedVerdicts_chunkEvents _ _

theorem events_of_chunks_nil_iff (tx : String) (cr : ℕ → Option (List Review)) :
    events_of_chunks tx cr = [] ↔ all_sentence_reviews tx cr = [] := by
  rw [← List.length_eq_zero, ← List.length_eq_zero, events_of_chunks_length]

theorem risk_score_rounded_eq_div (c m t : ℕ) (ht : 0 < t) :
    risk_score_rounded c m t = min 100 ((2 * (200 * c + 150 * m) + t) / (2 * t)) := by
  rw [risk_score_rounded, if_pos ht]
  have ht' : (t : ℚ) ≠ 0 := Nat.cast_ne_zero.mpr (by omega)
  have h15 : (1.5 : ℚ) = 3 / 2 := by norm_num
  have hq : (((c : ℚ) * 2 + (m : ℚ) * 1.5) / (t : ℚ)) * 100 + 1 / 2
      = (((2 * (200 * c + 150 * m) + t : ℕ) : ℤ) : ℚ) / ((2 * t : ℕ) : ℚ) := by
    rw [h15]
    push_cast
    field_simp
    ring
  rw [round_eq, hq, Rat.floor_intCast_div_natCast, ← Int.natCast_div, Int.toNat_natCast]

theorem countP_SR_run (tt tx : String) (refs : List RefInput) (td : String)
    (cr : ℕ → Option (List Review)) (sr : Option String) :
    (analyze_claims_streaming tt tx refs td cr sr).events.countP Event.isSentenceReview
      = (all_sentence_reviews tx cr).length := by
  have hev : (events_of_chunks tx cr).countP Event.isSentenceReview
      = (all_sentence_reviews tx cr).length := by
    rw [List.countP_eq_length.mpr (events_of_chunks_all_SR tx cr),
      events_of_chunks_length]
  by_cases hE : (all_sentence_reviews tx cr).isEmpty
  · simp only [analyze_claims_streaming, hE, if_true, List.countP_cons]
    simpa [Event.isSentenceReview] using hev
  · simp only [analyze_claims_streaming, hE, Bool.false_eq_true, if_false,
      List.countP_cons, List.countP_append, hev]
    simp [Event.isSentenceReview]

theorem producedVerdicts_run (tt tx : String) (refs : List RefInput) (td : String)
    (cr : ℕ → Option (List Review)) (sr : Option String) :
    producedVerdicts (analyze_claims_streaming tt tx refs td cr sr).events
      = (all_sentence_reviews tx cr).map fun rv => rv.verdict.getD "Unknown" := by
  have h1 := producedVerdicts_events_of_chunks tx cr
  rw [producedVerdicts] at h1
  by_cases hE : (all_sentence_reviews tx cr).isEmpty
  · simp only [analyze_claims_streaming, hE, if_true, producedVerdicts,
      List.filterMap_cons]
    simpa using h1
  · simp only [analyze_claims_streaming, hE, Bool.false_eq_true, if_false,
      producedVerdicts, List.filterMap_cons, List.filterMap_append]
    simp only [h1]
    simp

theorem complete_event_fields (tt tx : String) (refs : List RefInput) (td : String)
    (cr : ℕ → Option (List Review)) (sr : Option String)
    (counts : List (String × ℕ)) (tr r : ℕ) (s : String) (ru : List RefUsed)
    (hmem : Event.analysis_complete counts tr r s tt td ru
      ∈ (analyze_claims_streaming tt tx refs td cr sr).events) :
    counts = verdict_counts tx cr ∧ tr = (all_sentence_reviews tx cr).length ∧
      r = run_risk_score tx cr ∧
      ru = references_used (package_references refs) := by
  by_cases hE : (all_sentence_reviews tx cr).isEmpty
  · exfalso
    simp only [analyze_claims_streaming, hE, if_true] at hmem
    rcases List.mem_cons.mp hmem with h1 | h1
    · exact Event.noConfusion h1
    · have := events_of_chunks_all_SR tx cr _ h1
      simp [Event.isSentenceReview] at this
  · simp only [analyze_claims_streaming, hE, Bool.false_eq_true, if_false] at hmem
    rcases List.mem_cons.mp hmem with h1 | h1
    · exact Event.noConfusion h1
    · rcases List.mem_append.mp h1 with h2 | h2
      · have := events_of_chunks_all_SR tx cr _ h2
        simp [Event.isSentenceReview] at this
      · rcases List.mem_cons.mp h2 with h3 | h3
        · exact Event.noConfusion h3
        · rcases List.mem_cons.mp h3 with h4 | h4
          · injection h4 with e1 e2 e3 e4 e5 e6 e7
            exact ⟨e1, e2, e3, e7⟩
          · simp at h4

theorem complete_mem_of_reviews_ne_nil (tt tx : String) (refs : List RefInput)
    (td : String) (cr : ℕ → Option (List Review)) (sr : Option String)
    (h : all_sentence_reviews tx cr ≠ []) :
    Event.analysis_complete (verdict_counts tx cr)
        (all_sentence_reviews tx cr).length (run_risk_score tx cr)
        (sr.getD "Analysis complete.") tt td
        (references_used (package_references refs))
      ∈ (analyze_claims_streaming tt tx refs td cr sr).events := by
  have hE : (all_sentence_reviews tx cr).isEmpty = false := by
    rcases hx : all_sentence_reviews tx cr with _ | ⟨a, l⟩
    · exact absurd hx h
    · rfl
  simp only [analyze_claims_streaming, hE, Bool.false_eq_true, if_false]
  simp

/-! ## Streaming claim theorems (C10, C7, C4, C3) -/

/-- C10: if the sentence split of the target text is empty (for example for
the empty string), the streaming run yields exactly one event — an
`analysis_start` with `total_sentences = 0` — and makes no completion-API
call of either kind. -/
theorem streaming_empty_input (tt tx : String) (refs : List RefInput)
    (td : String) (cr : ℕ → Option (List Review)) (sr : Option String)
    (h : splitSentences tx = []) :
    analyze_claims_streaming tt tx refs td cr sr
      = ⟨[Event.analysis_start 0 tt td], 0, 0⟩ := by
  have hchunks : create_smart_chunks (splitSentences tx) 800 = [] := by
    rw [h]; rfl
  have hrev : all_sentence_reviews tx cr = [] := by
    rw [all_sentence_reviews, hchunks]; rfl
  have hev : events_of_chunks tx cr = [] := by
    rw [events_of_chunks, hchunks]; rfl
  simp only [analyze_claims_streaming, hrev, List.isEmpty_nil, if_true, hev, h,
    List.length_nil, hchunks]
  rfl

theorem streaming_empty_input_witness :
    splitSentences "" = [] ∧
      analyze_claims_streaming "T" "" [] "Unknown" (fun _ => none) none
        = ⟨[Event.analysis_start 0 "T" "Unknown"], 0, 0⟩ := by
  have h : splitSentences "" = [] := rfl
  exact ⟨h, streaming_empty_input "T" "" [] "Unknown" (fun _ => none) none h⟩

/-- C7: the `generating_summary` and `analysis_complete` events close the
stream, in that order, exactly when at least one sentence review was
produced; with zero reviews neither event appears and no summary
completion-API call is made. -/
theorem streaming_summary_events (tt tx : String) (refs : List RefInput)
    (td : String) (cr : ℕ → Option (List Review)) (sr : Option String) :
    ((analyze_claims_streaming tt tx refs td cr sr).events.any
        Event.isSentenceReview = true →
      ∃ pre counts tr r s ru,
        (analyze_claims_streaming tt tx refs td cr sr).events
          = pre ++ [Event.generating_summary,
              Event.analysis_complete counts tr r s tt td ru] ∧
        (analyze_claims_streaming tt tx refs td cr sr).summary_api_calls = 1 ∧
        ∀ e ∈ pre, e.isGeneratingSummary = false ∧ e.isAnalysisComplete = false) ∧
    ((analyze_claims_streaming tt tx refs td cr sr).events.any
        Event.isSentenceReview = false →
      (analyze_claims_streaming tt tx refs td cr sr).summary_api_calls = 0 ∧
      ∀ e ∈ (analyze_claims_streaming tt tx refs td cr sr).events,
        e.isGeneratingSummary = false ∧ e.isAnalysisComplete = false) := by
  by_cases hE : (all_sentence_reviews tx cr).isEmpty
  · have hrev : all_sentence_reviews tx cr = [] := by
      rcases hx : all_sentence_reviews tx cr with _ | _
      · rfl
      · rw [hx] at hE; simp at hE
    have hev : events_of_chunks tx cr = [] :=
      (events_of_chunks_nil_iff tx cr).mpr hrev
    constructor
    · intro hany
      exfalso
      simp only [analyze_claims_streaming, hE, if_true, hev] at hany
      simp [Event.isSentenceReview] at hany
    · intro _
      constructor
      · simp [analyze_claims_streaming, hE]
      · intro e he
        simp only [analyze_claims_streaming, hE, if_true, hev] at he
        rcases List.mem_cons.mp he with h1 | h1
        · subst h1; exact ⟨rfl, rfl⟩
        · simp at h1
  · have hevne : events_of_chunks tx cr ≠ [] := by
      intro hnil
      have := (events_of_chunks_nil_iff tx cr).mp hnil
      rw [this] at hE
      simp at hE
    constructor
    · intro _
      refine ⟨Event.analysis_start (splitSentences tx).length tt td
          :: events_of_chunks tx cr,
        verdict_counts tx cr, (all_sentence_reviews tx cr).length,
        run_risk_score tx cr, sr.getD "Analysis complete.",
        references_used (package_references refs), ?_, ?_, ?_⟩
      · simp only [analyze_claims_streaming, hE, Bool.false_eq_true, if_false]
      · simp [analyze_claims_streaming, hE]
      · intro e he
        rcases List.mem_cons.mp he with h1 | h1
        · subst h1; exact ⟨rfl, rfl⟩
        · have := events_of_chunks_all_SR tx cr e h1
          cases e <;> simp_all [Event.isSentenceReview, Event.isGeneratingSummary,
            Event.isAnalysisComplete]
    · intro hany
      exfalso
      obtain ⟨e, he⟩ := List.exists_mem_of_ne_nil _ hevne
      have hSR := events_of_chunks_all_SR tx cr e he
      have hmem : e ∈ (analyze_claims_streaming tt tx refs td cr sr).events := by
        simp only [analyze_claims_streaming, hE, Bool.false_eq_true, if_false]
        exact List.mem_cons_of_mem _ (List.mem_append_left _ he)
      rw [List.any_eq_false] at hany
      exact absurd hSR (by simpa using hany e hmem)

theorem streaming_summary_events_witness :
    (analyze_claims_streaming "T" "A. B. C." [] "D" sampleChunkResult none).events.any
        Event.isSentenceReview = true ∧
      ∃ pre counts tr r s ru,
        (analyze_claims_streaming "T" "A. B. C." [] "D" sampleChunkResult none).events
          = pre ++ [Event.generating_summary,
              Event.analysis_complete counts tr r s "T" "D" ru] ∧
        (analyze_claims_streaming "T" "A. B. C." [] "D"
          sampleChunkResult none).summary_api_calls = 1 ∧
        ∀ e ∈ pre, e.isGeneratingSummary = false ∧ e.isAnalysisComplete = false := by
  have hany : (analyze_claims_streaming "T" "A. B. C." [] "D"
      sampleChunkResult none).events.any Event.isSentenceReview = true := by
    decide
  exact ⟨hany,
    (streaming_summary_events "T" "A. B. C." [] "D" sampleChunkResult none).1 hany⟩

/-- C4: in every terminal `analysis_complete` event, the values of
`pattern_summary.counts_by_verdict` sum to the number of sentence reviews
produced across all chunks (visible as the `sentence_review` events of the
same run). -/
theorem streaming_counts_sum (tt tx : String) (refs : List RefInput)
    (td : String) (cr : ℕ → Option (List Review)) (sr : Option String)
    (counts : List (String × ℕ)) (tr r : ℕ) (s : String) (ru : List RefUsed)
    (hmem : Event.analysis_complete counts tr r s tt td ru
      ∈ (analyze_claims_streaming tt tx refs td cr sr).events) :
    countsTotal counts
      = (analyze_claims_streaming tt tx refs td cr sr).events.countP
          Event.isSentenceReview := by
  obtain ⟨hc, -, -, -⟩ := complete_event_fields tt tx refs td cr sr counts tr r s ru hmem
  rw [hc, verdict_counts, countsTotal_tally, List.length_map, countP_SR_run]

theorem streaming_counts_sum_witness :
    (Event.analysis_complete (verdict_counts "A. B. C." sampleChunkResult)
        (all_sentence_reviews "A. B. C." sampleChunkResult).length
        (run_risk_score "A. B. C." sampleChunkResult) "Analysis complete." "T" "D"
        (references_used (package_references []))
      ∈ (analyze_claims_streaming "T" "A. B. C." [] "D"
          sampleChunkResult none).events) ∧
      countsTotal (verdict_counts "A. B. C." sampleChunkResult)
        = (analyze_claims_streaming "T" "A. B. C." [] "D"
            sampleChunkResult none).events.countP Event.isSentenceReview := by
  have hne : all_sentence_reviews "A. B. C." sampleChunkResult ≠ [] := by decide
  have hmem := complete_mem_of_reviews_ne_nil "T" "A. B. C." [] "D"
    sampleChunkResult none hne
  exact ⟨hmem,
    streaming_counts_sum "T" "A. B. C." [] "D" sampleChunkResult none _ _ _ _ _ hmem⟩

/-- C3 (amended): the risk score of the terminal event equals
`min(100, floor(((contradicted*2 + misleading*1.5)/total_reviews)*100))` —
the source truncates with `int()`, it does not round — where the counts are
the tallies of the produced reviews' verdicts and `total_reviews` is the
number of produced reviews. -/
theorem streaming_risk_score_eq (tt tx : String) (refs : List RefInput)
    (td : String) (cr : ℕ → Option (List Review)) (sr : Option String)
    (counts : List (String × ℕ)) (tr r : ℕ) (s : String) (ru : List RefUsed)
    (hmem : Event.analysis_complete counts tr r s tt td ru
      ∈ (analyze_claims_streaming tt tx refs td cr sr).events) :
    r = risk_score
        ((producedVerdicts
            (analyze_claims_streaming tt tx refs td cr sr).events).count
          "Contradicted")
        ((producedVerdicts
            (analyze_claims_streaming tt tx refs td cr sr).events).count
          "Misleading by context")
        ((analyze_claims_streaming tt tx refs td cr sr).events.countP
          Event.isSentenceReview) := by
  obtain ⟨-, -, hr, -⟩ := complete_event_fields tt tx refs td cr sr counts tr r s ru hmem
  rw [hr, run_risk_score, producedVerdicts_run, countP_SR_run, verdict_counts,
    countsGet_tally, countsGet_tally]

theorem streaming_risk_score_eq_witness :
    (Event.analysis_complete (verdict_counts "A. B. C." sampleChunkResult)
        (all_sentence_reviews "A. B. C." sampleChunkResult).length
        (run_risk_score "A. B. C." sampleChunkResult) "Analysis complete." "T" "D"
        (references_used (package_references []))
      ∈ (analyze_claims_streaming "T" "A. B. C." [] "D"
          sampleChunkResult none).events) ∧
      run_risk_score "A. B. C." sampleChunkResult
        = risk_score
            ((producedVerdicts (analyze_claims_streaming "T" "A. B. C." [] "D"
                sampleChunkResult none).events).count "Contradicted")
            ((producedVerdicts (analyze_claims_streaming "T" "A. B. C." [] "D"
                sampleChunkResult none).events).count "Misleading by context")
            ((analyze_claims_streaming "T" "A. B. C." [] "D"
                sampleChunkResult none).events.countP Event.isSentenceReview) := by
  have hne : all_sentence_reviews "A. B. C." sampleChunkResult ≠ [] := by decide
  have hmem := complete_mem_of_reviews_ne_nil "T" "A. B. C." [] "D"
    sampleChunkResult none hne
  exact ⟨hmem,
    streaming_risk_score_eq "T" "A. B. C." [] "D" sampleChunkResult none _ _ _ _ _ hmem⟩

/-- Claim C3 as frozen: the emitted risk score would equal the rounded
formula.  Refuted below. -/
def streaming_round_claim : Prop :=
  ∀ (tt tx : String) (refs : List RefInput) (td : String)
    (cr : ℕ → Option (List Review)) (sr : Option String)
    (counts : List (String × ℕ)) (tr r : ℕ) (s : String) (ru : List RefUsed),
    Event.analysis_complete counts tr r s tt td ru
        ∈ (analyze_claims_streaming tt tx refs td cr sr).events →
    r = risk_score_rounded
        ((producedVerdicts
            (analyze_claims_streaming tt tx refs td cr sr).events).count
          "Contradicted")
        ((producedVerdicts
            (analyze_claims_streaming tt tx refs td cr sr).events).count
          "Misleading by context")
        ((analyze_claims_streaming tt tx refs td cr sr).events.countP
          Event.isSentenceReview)

/-- C3 counterexample: with one Contradicted verdict among three reviews the
code emits `min(100, int((2/3)*100)) = 66`, while the claimed rounding
formula gives `67`. -/
theorem streaming_risk_round_false : ¬ streaming_round_claim := by
  intro hclaim
  have hne : all_sentence_reviews "A. B. C." sampleChunkResult ≠ [] := by decide
  have hmem := complete_mem_of_reviews_ne_nil "T" "A. B. C." [] "D"
    sampleChunkResult none hne
  have heq := hclaim "T" "A. B. C." [] "D" sampleChunkResult none _ _ _ _ _ hmem
  have hA : (producedVerdicts (analyze_claims_streaming "T" "A. B. C." [] "D"
      sampleChunkResult none).events).count "Contradicted" = 1 := by decide
  have hB : (producedVerdicts (analyze_claims_streaming "T" "A. B. C." [] "D"
      sampleChunkResult none).events).count "Misleading by context" = 0 := by decide
  have hC : (analyze_claims_streaming "T" "A. B. C." [] "D"
      sampleChunkResult none).events.countP Event.isSentenceReview = 3 := by decide
  rw [hA, hB, hC] at heq
  have hL : run_risk_score "A. B. C." sampleChunkResult = 66 := by
    have h1 : countsGet (verdict_counts "A. B. C." sampleChunkResult)
        "Contradicted" = 1 := by decide
    have h2 : countsGet (verdict_counts "A. B. C." sampleChunkResult)
        "Misleading by context" = 0 := by decide
    have h3 : (all_sentence_reviews "A. B. C." sampleChunkResult).length = 3 := by
      decide
    rw [run_risk_score, h1, h2, h3, risk_score_eq_div 1 0 3 (by decide)]
    decide
  have hR : risk_score_rounded 1 0 3 = 67 := by
    rw [risk_score_rounded_eq_div 1 0 3 (by decide)]
    decide
  rw [hL, hR] at heq
  exact absurd heq (by decide)

/-! ## Theorems about the article fetch client (C6) -/

theorem fetch_article_url (net : String → Except String ArticleData)
    (now : String) (u : String) : (fetch_article net now u).url = u := by
  rw [fetch_article]
  by_cases hv : (!(_is_valid_url u)) = true
  · rw [if_pos hv]; rfl
  · rw [if_neg hv]
    rcases net u with d | e <;> rfl

/-- C6: `fetch_multiple_articles` returns exactly one record per input URL,
in input order; every record is either a success record or a failure record
`{url, success: false, error, fetched_at}`; a malformed URL (no scheme or no
network location) yields the `Invalid URL` failure record rather than an
exception, and one failure never prevents the remaining URLs from producing
their own records. -/
theorem fetch_multiple_articles_spec (net : String → Except String ArticleData)
    (now : String) (urls : List String) :
    (fetch_multiple_articles net now urls).map ArticleRecord.url = urls ∧
    (∀ r ∈ fetch_multiple_articles net now urls,
      (∃ d, r = ArticleRecord.ok r.url d now) ∨
      (∃ e, r = ArticleRecord.failed r.url e now)) ∧
    (∀ url, _is_valid_url url = false →
      fetch_article net now url
        = ArticleRecord.failed url ("Invalid URL: " ++ url) now) := by
  refine ⟨?_, ?_, ?_⟩
  · rw [fetch_multiple_articles, List.map_map]
    have : (ArticleRecord.url ∘ fetch_article net now) = fun u => u := by
      funext u
      exact fetch_article_url net now u
    rw [this]
    simp
  · intro r hr
    rw [fetch_multiple_articles, List.mem_map] at hr
    obtain ⟨u, -, rfl⟩ := hr
    rw [fetch_article]
    by_cases hv : (!(_is_valid_url u)) = true
    · rw [if_pos hv]
      exact Or.inr ⟨_, rfl⟩
    · rw [if_neg hv]
      rcases hn : net u with d | e
      · exact Or.inr ⟨_, rfl⟩
      · exact Or.inl ⟨_, rfl⟩
  · intro url hval
    rw [fetch_article, if_pos]
    rw [hval]
    rfl

theorem fetch_multiple_articles_spec_witness :
    _is_valid_url "not a url" = false ∧
      fetch_article (fun _ => Except.ok ⟨"t", "x"⟩) "2024-01-01T00:00:00"
          "not a url"
        = ArticleRecord.failed "not a url" ("Invalid URL: " ++ "not a url")
            "2024-01-01T00:00:00" := by
  have hv : _is_valid_url "not a url" = false := by decide
  exact ⟨hv,
    (fetch_multiple_articles_spec (fun _ => Except.ok ⟨"t", "x"⟩)
      "2024-01-01T00:00:00" []).2.2 "not a url" hv⟩

/-! ## Theorems about URL validation (C9) -/

/-- Claim C9 as frozen: `validate_url` accepts exactly well-formed URLs whose
HEAD response has a 2xx status and a text/html content type.  Refuted below:
the source compares the status to 200, so 204 with text/html is rejected. -/
def validate_claim_2xx : Prop :=
  ∀ (head : String → Except String HeadResp) (url : String),
    (validate_url head url).valid = true ↔
      (_is_valid_url url = true ∧ ∃ resp, head url = Except.ok resp ∧
        200 ≤ resp.status_code ∧ resp.status_code < 300 ∧
        strContains (strLower (resp.content_type.getD "")) "text/html" = true)

/-- C9 counterexample: a HEAD response `204 No Content` with content type
`text/html` is a 2xx HTML response, yet the code returns `valid = false`
(`HTTP 204`), because it tests `status_code != 200`. -/
theorem validate_url_2xx_false : ¬ validate_claim_2xx := by
  intro h
  have h2 := (h (fun _ => Except.ok ⟨204, some "text/html"⟩) "http://example.com").mpr
    ⟨by decide, ⟨204, some "text/html"⟩, rfl, by decide, by decide, by decide⟩
  have h3 : (validate_url (fun _ => Except.ok ⟨204, some "text/html"⟩)
      "http://example.com").valid = false := by decide
  rw [h2] at h3
  exact Bool.noConfusion h3

/-- C9 (amended): `validate_url` returns `valid = true` exactly for a
well-formed URL whose HEAD call succeeds with status exactly 200 (the source
compares to 200, not to the 2xx class) and a content type containing
`text/html`; the success result carries the status code and the lower-cased
content type, and every other case (malformed URL, request error, status
other than 200, non-HTML content type) gets `valid = false`. -/
theorem validate_url_spec (head : String → Except String HeadResp)
    (url : String) :
    ((validate_url head url).valid = true ↔
      (_is_valid_url url = true ∧ ∃ resp, head url = Except.ok resp ∧
        resp.status_code = 200 ∧
        strContains (strLower (resp.content_type.getD "")) "text/html" = true)) ∧
    ((validate_url head url).valid = true →
      (validate_url head url).status_code = some 200 ∧
      ∃ resp, head url = Except.ok resp ∧
        (validate_url head url).content_type
          = some (strLower (resp.content_type.getD ""))) := by
  by_cases hv : _is_valid_url url = true
  · rcases hr : head url with e | resp
    · have hval : validate_url head url = ⟨false, some e, url, none, none⟩ := by
        simp [validate_url, hv, hr]
      rw [hval]
      constructor
      · constructor
        · intro hc; exact Bool.noConfusion hc
        · rintro ⟨-, resp, hresp, -⟩
          exact Except.noConfusion hresp
      · intro hc; exact Bool.noConfusion hc
    · by_cases hs : resp.status_code = 200
      · by_cases hct :
            strContains (strLower (resp.content_type.getD "")) "text/html" = true
        · have hval : validate_url head url
              = ⟨true, none, url, some resp.status_code,
                  some (strLower (resp.content_type.getD ""))⟩ := by
            simp [validate_url, hv, hr, hs, hct]
          rw [hval]
          constructor
          · constructor
            · intro _
              exact ⟨hv, resp, rfl, hs, hct⟩
            · intro _; rfl
          · intro _
            exact ⟨by rw [hs], resp, rfl, rfl⟩
        · have hval : validate_url head url
              = ⟨false, some ("Invalid content type: "
                  ++ strLower (resp.content_type.getD "")), url, none, none⟩ := by
            simp [validate_url, hv, hr, hs, hct]
          rw [hval]
          constructor
          · constructor
            · intro hc; exact Bool.noConfusion hc
            · rintro ⟨-, resp2, hresp2, -, hct2⟩
              injection hresp2 with hre
              subst hre
              exact absurd hct2 hct
          · intro hc; exact Bool.noConfusion hc
      · have hval : validate_url head url
            = ⟨false, some ("HTTP " ++ toString resp.status_code),
                url, none, none⟩ := by
          simp [validate_url, hv, hr, hs]
        rw [hval]
        constructor
        · constructor
          · intro hc; exact Bool.noConfusion hc
          · rintro ⟨-, resp2, hresp2, hs2, -⟩
            injection hresp2 with hre
            subst hre
            exact absurd hs2 hs
        · intro hc; exact Bool.noConfusion hc
  · have hval : validate_url head url
        = ⟨false, some "Invalid URL format", url, none, none⟩ := by
      simp [validate_url, hv]
    rw [hval]
    constructor
    · constructor
      · intro hc; exact Bool.noConfusion hc
      · rintro ⟨hv2, -⟩
        exact absurd hv2 hv
    · intro hc; exact Bool.noConfusion hc

theorem validate_url_spec_witness :
    (validate_url (fun _ => Except.ok ⟨200, some "text/HTML; charset=utf-8"⟩)
        "http://example.com/page").valid = true := by
  exact (validate_url_spec
      (fun _ => Except.ok ⟨200, some "text/HTML; charset=utf-8"⟩)
      "http://example.com/page").1.mpr
    ⟨by decide, ⟨200, some "text/HTML; charset=utf-8"⟩, rfl, rfl, by decide⟩

/-! ## Theorem about the reference round trip (C5) -/

/-- C5: packaging assigns `ref_id = "R" ++ (1-based input position)` to each
reference, in input order, and the `references_used` list of the terminal
`analysis_complete` event is exactly the projection of those N packaged
references, in the same order, with the same `ref_id`s. -/
theorem references_round_trip (references : List RefInput) (i : ℕ)
    (h : i < references.length)
    (tt tx td : String) (cr : ℕ → Option (List Review)) (sr : Option String)
    (counts : List (String × ℕ)) (tr r : ℕ) (s : String) (ru : List RefUsed)
    (hmem : Event.analysis_complete counts tr r s tt td ru
      ∈ (analyze_claims_streaming tt tx references td cr sr).events) :
    (package_references references).length = references.length ∧
    ru = references_used (package_references references) ∧
    ru[i]? = ((package_references references)[i]?).map
        (fun pr => RefUsed.mk pr.ref_id pr.title pr.date pr.url) ∧
    ((package_references references)[i]?).map PackagedRef.ref_id
        = some ("R" ++ toString (i + 1)) := by
  obtain ⟨-, -, -, hru⟩ :=
    complete_event_fields tt tx references td cr sr counts tr r s ru hmem
  obtain ⟨h1, h2⟩ := references_used_getElem references i h
  exact ⟨by simp [package_references], hru, by rw [hru]; exact h1, h2⟩

theorem references_round_trip_witness :
    (1 < ([⟨some "t1", none, none, none⟩, ⟨none, some "d2", none, none⟩] :
        List RefInput).length ∧
      Event.analysis_complete
          (verdict_counts "A. B. C." sampleChunkResult)
          (all_sentence_reviews "A. B. C." sampleChunkResult).length
          (run_risk_score "A. B. C." sampleChunkResult) "Analysis complete."
          "T" "D"
          (references_used (package_references
            [⟨some "t1", none, none, none⟩, ⟨none, some "d2", none, none⟩]))
        ∈ (analyze_claims_streaming "T" "A. B. C."
            [⟨some "t1", none, none, none⟩, ⟨none, some "d2", none, none⟩] "D"
            sampleChunkResult none).events) ∧
      ((package_references
          [⟨some "t1", none, none, none⟩, ⟨none, some "d2", none, none⟩])[1]?).map
        PackagedRef.ref_id = some ("R" ++ toString 2) := by
  have h : 1 < ([⟨some "t1", none, none, none⟩, ⟨none, some "d2", none, none⟩] :
      List RefInput).length := by decide
  have hne : all_sentence_reviews "A. B. C." sampleChunkResult ≠ [] := by decide
  have hmem := complete_mem_of_reviews_ne_nil "T" "A. B. C."
    [⟨some "t1", none, none, none⟩, ⟨none, some "d2", none, none⟩] "D"
    sampleChunkResult none hne
  exact ⟨⟨h, hmem⟩,
    (references_round_trip
      [⟨some "t1", none, none, none⟩, ⟨none, some "d2", none, none⟩] 1 h
      "T" "A. B. C." "D" sampleChunkResult none _ _ _ _ _ hmem).2.2.2⟩
